import Mathlib

/-!
Verification development for the figure-refinement tooling of this
repository (`tooling/tikzbot.py` and `tooling/gen_chapter_list.py`).

The Python source is shallowly embedded: pure fragments become Lean
functions, the per-target refinement loop becomes a fuel-indexed recursion
over an oracle assigning a similarity score to every attempt (rendering and
rasterising are external collaborators, so the score observed at each
attempt is the only information the loop consumes), text manipulation is
modelled on `List Char`, and the file system is a map from paths to file
contents.  Floating-point similarity scores are modelled by exact
rationals.
-/

namespace Figurelab

/-! ### Similarity acceptance threshold (tikzbot.py line 15) -/

/-- The acceptance threshold `SSIM_OK = 0.985` (tikzbot.py line 15). -/
def SSIM_OK : ℚ := 985 / 1000

/-! ### Heuristic knob policy (tikzbot.py lines 84-89)

`refine_page_once` builds the `adjust` dict from the current score:
values below `0.96` select the spring-shape bucket, otherwise the
line-geometry bucket is selected.  Knob names and values are the exact
string literals of the source. -/

def springAmp : List Char := "springAmp".toList

def springTurns : List Char := "springTurns".toList

def lineThick : List Char := "lineThick".toList

def axisLift : List Char := "axisLift".toList

/-- The `adjust` dict built by `refine_page_once` for a non-accepted score
(tikzbot.py lines 85-89); a Python dict with insertion order is modelled as
an association list. -/
def adjustFor (score : ℚ) : List (List Char × List Char) :=
  if score < 96 / 100 then
    [(springAmp, "0.8".toList), (springTurns, "12".toList)]
  else
    [(lineThick, "1.6pt".toList), (axisLift, "0.12".toList)]

/-! ### Refinement loop state machine (tikzbot.py lines 111-136) -/

/-- Terminal states of a per-target refinement session. -/
inductive Status where
  | Converged
  | Exhausted
deriving DecidableEq

/-- The acceptance test of `refine_page_once` (tikzbot.py line 82):
`score >= SSIM_OK`. -/
def refine_ok (score : ℚ) : Bool := SSIM_OK ≤ score

/-- The retry budget: `for attempt in range(6)` (tikzbot.py line 114). -/
def max_attempts : ℕ := 6

/-- The inner per-figure loop of `main` (tikzbot.py lines 114-132), indexed
by remaining fuel and the current attempt counter.  Each iteration
evaluates the current candidate; an accepted score breaks out (Converged),
otherwise the attempt counter advances and, when the budget is exhausted,
the loop falls off the end of `range(6)` (Exhausted).  Returns the terminal
state and the attempt counter at exit. -/
def sessionLoop (score : ℕ → ℚ) : ℕ → ℕ → Status × ℕ
  | 0, attempt => (Status.Exhausted, attempt)
  | n + 1, attempt =>
    if refine_ok (score attempt) then (Status.Converged, attempt)
    else sessionLoop score n (attempt + 1)

/-- One whole per-target session: the loop started at attempt `0` with the
full budget (tikzbot.py line 114). -/
def runSession (score : ℕ → ℚ) : Status × ℕ :=
  sessionLoop score max_attempts 0

/-- Observable actions of `main` while processing one item of a batch
(tikzbot.py lines 111-135), in program order. -/
inductive Event where
  | eval (attempt : ℕ) (score : ℚ)
  | tweak (attempt : ℕ) (adjust : List (List Char × List Char))
  | rerender (attempt : ℕ)
  | gitAdd
deriving DecidableEq

/-- Trace of the inner refinement loop (tikzbot.py lines 114-132): evaluate,
then on failure tweak the knobs and re-render, then retry. -/
def attemptEvents (score : ℕ → ℚ) : ℕ → ℕ → List Event
  | 0, _ => []
  | n + 1, attempt =>
    Event.eval attempt (score attempt) ::
      (if refine_ok (score attempt) then []
       else
        Event.tweak attempt (adjustFor (score attempt)) ::
          Event.rerender attempt :: attemptEvents score n (attempt + 1))

/-- Trace of `main` for one item: the refinement loop followed by the
unconditional `git add` of the snippet and the last render
(tikzbot.py line 135) — the `git add` is issued after the loop whether or
not any attempt was accepted. -/
def itemEvents (score : ℕ → ℚ) : List Event :=
  attemptEvents score max_attempts 0 ++ [Event.gitAdd]

/-- The attempt indices at which the trace evaluated a candidate. -/
def evalAttempts (es : List Event) : List ℕ :=
  es.filterMap fun e =>
    match e with
    | Event.eval a _ => some a
    | _ => none

/-! ### Loop lemmas -/

theorem sessionLoop_succ (score : ℕ → ℚ) (n attempt : ℕ) :
    sessionLoop score (n + 1) attempt =
      if refine_ok (score attempt) then (Status.Converged, attempt)
      else sessionLoop score n (attempt + 1) := rfl

theorem sessionLoop_snd_le (score : ℕ → ℚ) :
    ∀ n attempt, (sessionLoop score n attempt).2 ≤ attempt + n := by
  intro n
  induction n with
  | zero => intro attempt; simp [sessionLoop]
  | succ n ih =>
    intro attempt
    rw [sessionLoop_succ]
    by_cases h : refine_ok (score attempt)
    · simp [h]
    · simp only [h, if_false, Bool.false_eq_true]
      calc (sessionLoop score n (attempt + 1)).2 ≤ attempt + 1 + n := ih (attempt + 1)
        _ = attempt + (n + 1) := by omega

theorem sessionLoop_converged (score : ℕ → ℚ) :
    ∀ n attempt, (sessionLoop score n attempt).1 = Status.Converged →
      SSIM_OK ≤ score (sessionLoop score n attempt).2 := by
  intro n
  induction n with
  | zero => intro attempt h; simp [sessionLoop] at h
  | succ n ih =>
    intro attempt h
    rw [sessionLoop_succ] at h ⊢
    by_cases hc : refine_ok (score attempt)
    · simp only [hc, if_true]
      exact of_decide_eq_true hc
    · simp only [hc, if_false, Bool.false_eq_true] at h ⊢
      exact ih (attempt + 1) h

theorem sessionLoop_all_fail (score : ℕ → ℚ)
    (hf : ∀ j, refine_ok (score j) = false) :
    ∀ n attempt, sessionLoop score n attempt = (Status.Exhausted, attempt + n) := by
  intro n
  induction n with
  | zero => intro attempt; simp [sessionLoop]
  | succ n ih =>
    intro attempt
    rw [sessionLoop_succ, hf attempt]
    simp only [Bool.false_eq_true, if_false]
    rw [ih (attempt + 1)]
    congr 1
    omega

theorem attemptEvents_evalAttempts (score : ℕ → ℚ) :
    ∀ n attempt, ∃ m, m ≤ n ∧
      evalAttempts (attemptEvents score n attempt) = List.range' attempt m := by
  intro n
  induction n with
  | zero =>
    intro attempt
    exact ⟨0, le_refl 0, by simp [attemptEvents, evalAttempts]⟩
  | succ n ih =>
    intro attempt
    by_cases h : refine_ok (score attempt)
    · refine ⟨1, by omega, ?_⟩
      simp [attemptEvents, evalAttempts, h]
    · obtain ⟨m, hm, hev⟩ := ih (attempt + 1)
      refine ⟨m + 1, by omega, ?_⟩
      simp only [attemptEvents, h, Bool.false_eq_true, if_false]
      simp only [evalAttempts, List.filterMap_cons] at hev ⊢
      rw [hev, List.range'_succ]

/-! ### Claim theorems C1-C3 -/

/-- C1 counterexample: a session whose six attempts all score `0.90` ends
`Exhausted`, yet the trace of `main` still contains the `git add` of the
snippet and render — the Commit Gateway is invoked even for an Exhausted
session, so "commit if and only if Converged" fails on the code. -/
theorem exhausted_still_commits :
    (runSession fun _ => 9 / 10).1 = Status.Exhausted ∧
      Event.gitAdd ∈ itemEvents fun _ => 9 / 10 := by
  constructor
  · have hf : ∀ j : ℕ, refine_ok ((fun _ : ℕ => (9 : ℚ) / 10) j) = false := by
      intro j
      simp only [refine_ok, decide_eq_false_iff_not, not_le, SSIM_OK]
      norm_num
    rw [runSession, sessionLoop_all_fail _ hf]
  · simp [itemEvents]

/-- C1 (amended): for every per-target session, whatever the observed
scores, the trace of `main` contains the `git add` of the snippet and of
the last render — the Commit Gateway is invoked for Converged and for
Exhausted sessions alike (tikzbot.py line 135 runs unconditionally after
the loop). -/
theorem commit_gateway_always_invoked (score : ℕ → ℚ) :
    Event.gitAdd ∈ itemEvents score := by
  simp [itemEvents]

/-- C2: for every score oracle, the attempts actually evaluated by the
session are exactly `0, 1, ..., m-1` for some `m ≤ 6` — the attempt counter
increases by exactly 1 per non-converging iteration — and the attempt
counter at loop exit never exceeds `max_attempts = 6`; the loop is a total
function, reaching a terminal state within the budget for every input. -/
theorem attempt_count_bounded (score : ℕ → ℚ) :
    (∃ m, m ≤ max_attempts ∧
        evalAttempts (itemEvents score) = List.range m) ∧
      (runSession score).2 ≤ max_attempts := by
  constructor
  · obtain ⟨m, hm, hev⟩ := attemptEvents_evalAttempts score max_attempts 0
    refine ⟨m, hm, ?_⟩
    rw [itemEvents, evalAttempts, List.filterMap_append]
    have h2 : evalAttempts [Event.gitAdd] = [] := by simp [evalAttempts]
    rw [evalAttempts] at hev h2
    rw [hev, h2, List.append_nil, List.range_eq_range']
  · have := sessionLoop_snd_le score max_attempts 0
    simpa [runSession] using this

/-- C3: a session reaches `Converged` only if the score of the attempt at
which the loop stopped is at least the acceptance threshold
`SSIM_OK = 0.985`; no lower score can produce `Converged`. -/
theorem converged_requires_threshold (score : ℕ → ℚ)
    (h : (runSession score).1 = Status.Converged) :
    SSIM_OK ≤ score (runSession score).2 := by
  rw [runSession] at h ⊢
  exact sessionLoop_converged score max_attempts 0 h

/-- Witness for C3: a session whose first attempt scores `1` converges, and
the theorem yields `SSIM_OK ≤ 1` at that instance. -/
theorem converged_requires_threshold_witness :
    SSIM_OK ≤ (fun _ : ℕ => (1 : ℚ)) (runSession fun _ => (1 : ℚ)).2 := by
  refine converged_requires_threshold (fun _ => (1 : ℚ)) ?_
  have h1 : refine_ok ((fun _ : ℕ => (1 : ℚ)) 0) = true := by
    simp only [refine_ok, decide_eq_true_eq, SSIM_OK]
    norm_num
  have h6 : max_attempts = 5 + 1 := rfl
  rw [runSession, h6, sessionLoop_succ, h1]
  simp

/-! ### Textual knob substitution (tikzbot.py lines 49-54)

`tweak_knobs` rewrites, for every `(knob, val)` pair of the adjust dict,
every occurrence of the regex `(\def\KNOB<lb>)[^<rb>]+(<rb>)` in the
snippet (where `<lb>`/`<rb>` are the brace characters) to
`\g<1>VAL\2`, i.e. it replaces the nonempty brace-free body of each
`\def\KNOB` declaration by `val`.  The regex scan is modelled directly:
left-to-right, non-overlapping, greedy body.  The model splices `val`
literally into the replacement, which agrees with Python's `re.sub`
whenever `val` contains no backslash (a backslash in the replacement
template would be an escape to `re.sub`) and `knob` contains no regex
metacharacter; the theorems below restrict knob names to alphabetic
control words. -/

def bslash : Char := Char.ofNat 92

def lbrace : Char := Char.ofNat 123

def rbrace : Char := Char.ofNat 125

/-- Bool test used by the greedy body scan: not the closing brace. -/
def nrb (c : Char) : Bool := c != rbrace

/-- The literal opening part of the pattern: backslash, `def`, backslash,
the knob name, opening brace. -/
def hdr (knob : List Char) : List Char :=
  bslash :: 'd' :: 'e' :: 'f' :: bslash :: (knob ++ [lbrace])

/-- Try the pattern at the head of `t`: the literal `hdr knob`, a greedy
nonempty run of non-closing-brace characters, then the closing brace.
Returns the body and the remainder after the match. -/
def matchKnob (knob : List Char) (t : List Char) : Option (List Char × List Char) :=
  if hdr knob <+: t then
    let u := t.drop (hdr knob).length
    if u.takeWhile nrb = [] then none
    else
      match u.dropWhile nrb with
      | [] => none
      | _ :: rest => some (u.takeWhile nrb, rest)
  else none

/-- One full `re.sub` pass for a single knob, fuel-indexed: scan left to
right; at each position either rewrite a match and continue after it, or
emit one character.  Each step consumes at least one character, so fuel
`t.length` always suffices. -/
def subKnobF (knob val : List Char) : ℕ → List Char → List Char
  | 0, t => t
  | n + 1, t =>
    match matchKnob knob t, t with
    | some (_, r), _ => hdr knob ++ val ++ rbrace :: subKnobF knob val n r
    | none, [] => []
    | none, c :: t2 => c :: subKnobF knob val n t2

/-- One full `re.sub` pass for a single knob (tikzbot.py line 53). -/
def subKnob (knob val t : List Char) : List Char :=
  subKnobF knob val t.length t

/-- The full `tweak_knobs` (tikzbot.py lines 49-54): fold the per-knob substitution
over the adjust mapping in insertion order; the file read/write around the
transform is modelled away, the text transform is the content. -/
def tweak_knobs (adjust : List (List Char × List Char)) (txt : List Char) : List Char :=
  adjust.foldl (fun acc kv => subKnob kv.1 kv.2 acc) txt

/-- A well-formed knob name: a nonempty, purely alphabetic TeX control
word.  On this domain the literal-text model of the interpolated pattern
agrees with Python regex semantics. -/
def SimpleKnob (knob : List Char) : Prop :=
  knob ≠ [] ∧ ∀ c ∈ knob, c.isAlpha

instance (knob : List Char) : Decidable (SimpleKnob knob) := by
  unfold SimpleKnob
  infer_instance

/-! ### Basic facts about the matcher -/

theorem nrb_eq_true {c : Char} : nrb c = true ↔ c ≠ rbrace := by
  simp [nrb]

theorem nrb_rbrace : nrb rbrace = false := by
  simp [nrb]

theorem isAlpha_ne {c : Char} (h : c.isAlpha) :
    c ≠ bslash ∧ c ≠ lbrace ∧ c ≠ rbrace ∧ c ≠ '0' ∧ c ≠ '1' ∧ c ≠ '2' ∧
      c ≠ '.' ∧ c ≠ '_' := by
  refine ⟨?_, ?_, ?_, ?_, ?_, ?_, ?_, ?_⟩ <;>
    · rintro rfl
      simp [bslash, lbrace, rbrace] at h

theorem hdr_ne_nil (knob : List Char) : hdr knob ≠ [] := by
  simp [hdr]

theorem matchKnob_nil (knob : List Char) : matchKnob knob [] = none := by
  rw [matchKnob, if_neg]
  intro h
  exact hdr_ne_nil knob (List.prefix_nil.mp h)

theorem matchKnob_not_bslash {knob : List Char} {c : Char} (t : List Char)
    (hc : c ≠ bslash) : matchKnob knob (c :: t) = none := by
  rw [matchKnob, if_neg]
  rintro ⟨w, hw⟩
  rw [hdr] at hw
  simp only [List.cons_append] at hw
  injection hw with h1 _
  exact hc h1.symm

theorem dropWhile_nrb_head {u : List Char} {c : Char} {r : List Char}
    (h : u.dropWhile nrb = c :: r) : c = rbrace := by
  induction u with
  | nil => simp [List.dropWhile] at h
  | cons a u ih =>
    rw [List.dropWhile_cons] at h
    by_cases ha : nrb a = true
    · rw [if_pos ha] at h; exact ih h
    · rw [if_neg ha] at h
      injection h with h1 _
      have ha2 : a = rbrace := by
        by_contra hne
        exact ha (nrb_eq_true.mpr hne)
      exact h1 ▸ ha2

/-- Decomposition of a successful match: `t` is the header, a nonempty
brace-free body, the closing brace, then the rest. -/
theorem matchKnob_some {knob t body rest} (h : matchKnob knob t = some (body, rest)) :
    t = hdr knob ++ body ++ rbrace :: rest ∧ body ≠ [] ∧ ∀ c ∈ body, c ≠ rbrace := by
  rw [matchKnob] at h
  by_cases hp : hdr knob <+: t
  · rw [if_pos hp] at h
    simp only at h
    by_cases hb : (t.drop (hdr knob).length).takeWhile nrb = []
    · rw [if_pos hb] at h; exact absurd h (by simp)
    · rw [if_neg hb] at h
      rcases hd : (t.drop (hdr knob).length).dropWhile nrb with _ | ⟨c, rest2⟩
      · rw [hd] at h; exact absurd h (by simp)
      · rw [hd] at h
        simp only [Option.some.injEq, Prod.mk.injEq] at h
        obtain ⟨hbody, hrest⟩ := h
        obtain ⟨w, hw⟩ := hp
        have hu2 : t.drop (hdr knob).length = w := by
          rw [← hw, List.drop_left]
        have hc : c = rbrace := dropWhile_nrb_head hd
        refine ⟨?_, hbody ▸ hb, ?_⟩
        · rw [hu2] at hbody hd
          have hwid : w = body ++ rbrace :: rest := by
            rw [← hbody, ← hrest, ← hc, ← hd]
            exact (List.takeWhile_append_dropWhile nrb w).symm
          rw [← hw, hwid, List.append_assoc]
        · intro x hx
          rw [← hbody] at hx
          exact nrb_eq_true.mp (List.mem_takeWhile_imp hx)
  · rw [if_neg hp] at h; exact absurd h (by simp)

theorem takeWhile_nrb_insert {v : List Char} (hv : rbrace ∉ v) (s : List Char) :
    (v ++ rbrace :: s).takeWhile nrb = v ∧
      (v ++ rbrace :: s).dropWhile nrb = rbrace :: s := by
  induction v with
  | nil =>
    constructor
    · rw [List.nil_append, List.takeWhile_cons, if_neg (by rw [nrb_rbrace]; simp)]
    · rw [List.nil_append, List.dropWhile_cons, if_neg (by rw [nrb_rbrace]; simp)]
  | cons a v ih =>
    have ha : a ≠ rbrace := fun h => hv (h ▸ List.mem_cons_self a v)
    have hv2 : rbrace ∉ v := fun h => hv (List.mem_cons_of_mem a h)
    obtain ⟨ih1, ih2⟩ := ih hv2
    constructor
    · rw [List.cons_append, List.takeWhile_cons, if_pos (nrb_eq_true.mpr ha), ih1]
    · rw [List.cons_append, List.dropWhile_cons, if_pos (nrb_eq_true.mpr ha), ih2]

/-- The matcher accepts a freshly written declaration `hdr ++ v ++ rbrace`
whenever the value `v` is nonempty and brace-free. -/
theorem matchKnob_insert {knob v : List Char} (hv : rbrace ∉ v) (hne : v ≠ [])
    (s : List Char) :
    matchKnob knob (hdr knob ++ v ++ rbrace :: s) = some (v, s) := by
  obtain ⟨h1, h2⟩ := takeWhile_nrb_insert hv s
  rw [List.append_assoc, matchKnob, if_pos (List.prefix_append _ _)]
  simp only [List.drop_left, h1, h2]
  rw [if_neg hne]

/-- The matcher rejects an empty-bodied declaration `hdr ++ rbrace`. -/
theorem matchKnob_empty_body (knob : List Char) (s : List Char) :
    matchKnob knob (hdr knob ++ rbrace :: s) = none := by
  have h1 : (rbrace :: s).takeWhile nrb = [] := by
    rw [List.takeWhile_cons, if_neg (by rw [nrb_rbrace]; simp)]
  rw [matchKnob, if_pos (List.prefix_append _ _)]
  simp only [List.drop_left, h1]
  simp

/-- A match needs a closing brace: brace-free text never matches. -/
theorem matchKnob_no_rbrace {knob t : List Char} (ht : rbrace ∉ t) :
    matchKnob knob t = none := by
  rcases h : matchKnob knob t with _ | ⟨body, rest⟩
  · rfl
  · obtain ⟨hdec, -, -⟩ := matchKnob_some h
    exact absurd (by rw [hdec]; simp) (fun hm => ht hm)

theorem matchKnob_rest_length {knob t body rest : List Char}
    (h : matchKnob knob t = some (body, rest)) : rest.length < t.length := by
  obtain ⟨hdec, -, -⟩ := matchKnob_some h
  rw [hdec]
  simp [hdr]
  omega

/-! ### Unfolding equations for the substitution -/

theorem subKnobF_succ (knob val : List Char) (n : ℕ) (t : List Char) :
    subKnobF knob val (n + 1) t =
      match matchKnob knob t, t with
      | some (_, r), _ => hdr knob ++ val ++ rbrace :: subKnobF knob val n r
      | none, [] => []
      | none, c :: t2 => c :: subKnobF knob val n t2 := rfl

theorem subKnobF_fuel (knob val : List Char) :
    ∀ n m t, t.length ≤ n → t.length ≤ m →
      subKnobF knob val n t = subKnobF knob val m t := by
  intro n
  induction n with
  | zero =>
    intro m t hn _
    have : t = [] := List.length_eq_zero.mp (Nat.le_zero.mp hn)
    subst this
    cases m with
    | zero => rfl
    | succ m => rw [subKnobF_succ, matchKnob_nil]; rfl
  | succ n ih =>
    intro m t hn hm
    cases t with
    | nil =>
      cases m with
      | zero => rw [subKnobF_succ, matchKnob_nil]; rfl
      | succ m => rw [subKnobF_succ, subKnobF_succ, matchKnob_nil]
    | cons c t2 =>
      cases m with
      | zero => exact absurd hm (by simp)
      | succ m =>
        rcases hmk : matchKnob knob (c :: t2) with _ | ⟨body, rest⟩
        · rw [subKnobF_succ, subKnobF_succ, hmk]
          have hlen : t2.length ≤ n := by
            simp only [List.length_cons] at hn; omega
          have hlen2 : t2.length ≤ m := by
            simp only [List.length_cons] at hm; omega
          simp only
          rw [ih m t2 hlen hlen2]
        · rw [subKnobF_succ, subKnobF_succ, hmk]
          have hr := matchKnob_rest_length hmk
          simp only [List.length_cons] at hn hm hr
          have hlen : rest.length ≤ n := by omega
          have hlen2 : rest.length ≤ m := by omega
          simp only
          rw [ih m rest hlen hlen2]

theorem subKnob_nil (knob val : List Char) : subKnob knob val [] = [] := rfl

theorem subKnob_match {knob val t body rest : List Char}
    (h : matchKnob knob t = some (body, rest)) :
    subKnob knob val t = hdr knob ++ val ++ rbrace :: subKnob knob val rest := by
  obtain ⟨hdec, hne, -⟩ := matchKnob_some h
  have hlen : 1 ≤ t.length := by
    rw [hdec]; simp [hdr]
  cases t with
  | nil => simp at hlen
  | cons c t2 =>
    rw [subKnob, List.length_cons, subKnobF_succ, h]
    simp only
    rw [subKnob]
    have hr := matchKnob_rest_length h
    simp only [List.length_cons] at hr
    rw [subKnobF_fuel knob val t2.length rest.length rest (by omega) (le_refl _)]

theorem subKnob_none {knob val : List Char} {c : Char} {t2 : List Char}
    (h : matchKnob knob (c :: t2) = none) :
    subKnob knob val (c :: t2) = c :: subKnob knob val t2 := by
  rw [subKnob, List.length_cons, subKnobF_succ, h]
  rfl

theorem matchKnob_not_prefix {knob t : List Char} (h : ¬ hdr knob <+: t) :
    matchKnob knob t = none := by
  rw [matchKnob, if_neg h]

/-! ### Prefix combinatorics of the pattern header

The header of the pattern for a purely alphabetic knob can never start
inside another header or inside an alphabetic knob name; these lemmas pin
that down. -/

/-- The header minus its leading backslash. -/
def tailHdr (knob : List Char) : List Char :=
  'd' :: 'e' :: 'f' :: bslash :: (knob ++ [lbrace])

theorem hdr_eq_cons (knob : List Char) : hdr knob = bslash :: tailHdr knob := rfl

theorem simple_tail {c : Char} {k : List Char} (h : SimpleKnob (c :: k)) (hne : k ≠ []) :
    SimpleKnob k :=
  ⟨hne, fun x hx => h.2 x (List.mem_cons_of_mem c hx)⟩

theorem simple_head_alpha {c : Char} {k : List Char} (h : SimpleKnob (c :: k)) :
    c.isAlpha := h.2 c (List.mem_cons_self c k)

theorem hdr_no_rbrace {k : List Char} (hk : SimpleKnob k) : rbrace ∉ hdr k := by
  intro hm
  rw [hdr] at hm
  simp only [List.mem_cons, List.mem_append, List.mem_singleton] at hm
  rcases hm with h | h | h | h | h | h | h | h <;>
    first
      | exact absurd h (by decide)
      | exact absurd (hk.2 rbrace h) (by decide)

/-- An alphabetic knob followed by an opening brace can never be a prefix
of the body of a header (`def`, backslash, ...). -/
theorem knob_not_prefix_defbs {k : List Char} (hk : SimpleKnob k) (z : List Char) :
    ¬ (k ++ [lbrace]) <+: ('d' :: 'e' :: 'f' :: bslash :: z) := by
  intro h
  rcases k with _ | ⟨c0, k2⟩
  · exact absurd rfl hk.1
  · rw [List.cons_append, List.cons_prefix_cons] at h
    obtain ⟨-, h⟩ := h
    rcases k2 with _ | ⟨c1, k3⟩
    · rw [List.nil_append, List.cons_prefix_cons] at h
      exact absurd h.1 (by decide)
    · rw [List.cons_append, List.cons_prefix_cons] at h
      obtain ⟨-, h⟩ := h
      rcases k3 with _ | ⟨c2, k4⟩
      · rw [List.nil_append, List.cons_prefix_cons] at h
        exact absurd h.1 (by decide)
      · rw [List.cons_append, List.cons_prefix_cons] at h
        obtain ⟨-, h⟩ := h
        rcases k4 with _ | ⟨c3, k5⟩
        · rw [List.nil_append, List.cons_prefix_cons] at h
          exact absurd h.1 (by decide)
        · rw [List.cons_append, List.cons_prefix_cons] at h
          have hc3 : c3.isAlpha := hk.2 c3 (by simp)
          rw [h.1] at hc3
          exact absurd hc3 (by decide)

/-- The body of a header can never be a prefix of an alphabetic knob
followed by an opening brace and anything. -/
theorem defbs_not_prefix_knob {k : List Char} (hk : SimpleKnob k) (z w : List Char) :
    ¬ ('d' :: 'e' :: 'f' :: bslash :: z) <+: (k ++ lbrace :: w) := by
  intro h
  rcases k with _ | ⟨c0, k2⟩
  · rw [List.nil_append, List.cons_prefix_cons] at h
    exact absurd h.1 (by decide)
  · rw [List.cons_append, List.cons_prefix_cons] at h
    obtain ⟨-, h⟩ := h
    rcases k2 with _ | ⟨c1, k3⟩
    · rw [List.nil_append, List.cons_prefix_cons] at h
      exact absurd h.1 (by decide)
    · rw [List.cons_append, List.cons_prefix_cons] at h
      obtain ⟨-, h⟩ := h
      rcases k3 with _ | ⟨c2, k4⟩
      · rw [List.nil_append, List.cons_prefix_cons] at h
        exact absurd h.1 (by decide)
      · rw [List.cons_append, List.cons_prefix_cons] at h
        obtain ⟨-, h⟩ := h
        rcases k4 with _ | ⟨c3, k5⟩
        · rw [List.nil_append, List.cons_prefix_cons] at h
          exact absurd h.1 (by decide)
        · rw [List.cons_append, List.cons_prefix_cons] at h
          have hc3 : c3.isAlpha := hk.2 c3 (by simp)
          rw [← h.1] at hc3
          exact absurd hc3 (by decide)

/-- Two distinct alphabetic knobs: neither brace-terminated name is a
prefix of the other's brace-terminated name. -/
theorem knob_not_prefix_knob :
    ∀ {k1 k2 : List Char}, SimpleKnob k1 → SimpleKnob k2 → k1 ≠ k2 →
      ∀ w, ¬ (k1 ++ [lbrace]) <+: (k2 ++ lbrace :: w) := by
  intro k1
  induction k1 with
  | nil => intro k2 hk1 _ _ _ _; exact absurd rfl hk1.1
  | cons a k1t ih =>
    intro k2 hk1 hk2 hne w h
    rcases k2 with _ | ⟨b, k2t⟩
    · rw [List.nil_append, List.cons_append, List.cons_prefix_cons] at h
      have ha : a.isAlpha := simple_head_alpha hk1
      rw [h.1] at ha
      exact absurd ha (by decide)
    · rw [List.cons_append, List.cons_append, List.cons_prefix_cons] at h
      obtain ⟨hab, h⟩ := h
      subst hab
      have hne2 : k1t ≠ k2t := fun he => hne (by rw [he])
      rcases k1t with _ | ⟨a2, k1t2⟩
      · rcases k2t with _ | ⟨b2, k2t2⟩
        · exact hne2 rfl
        · rw [List.nil_append, List.cons_append, List.cons_prefix_cons] at h
          have hb2 : b2.isAlpha := simple_head_alpha (simple_tail hk2 (by simp))
          rw [← h.1] at hb2
          exact absurd hb2 (by decide)
      · rcases k2t with _ | ⟨b2, k2t2⟩
        · rw [List.cons_append, List.nil_append, List.cons_prefix_cons] at h
          have ha2 : a2.isAlpha := simple_head_alpha (simple_tail hk1 (by simp))
          rw [h.1] at ha2
          exact absurd ha2 (by decide)
        · exact ih (simple_tail hk1 (by simp)) (simple_tail hk2 (by simp)) hne2 w h

theorem suffix_append_cases {s a b : List Char} (h : s <:+ a ++ b) :
    s <:+ b ∨ ∃ a2, a2 <:+ a ∧ a2 ≠ [] ∧ s = a2 ++ b := by
  induction a with
  | nil => left; simpa using h
  | cons c a2 ih =>
    rw [List.cons_append, List.suffix_cons_iff] at h
    rcases h with h | h
    · right
      exact ⟨c :: a2, List.suffix_refl _, by simp, by rw [h, List.cons_append]⟩
    · rcases ih h with h2 | ⟨a3, h3, h4, h5⟩
      · left; exact h2
      · right; exact ⟨a3, h3.trans (List.suffix_cons c a2), h4, h5⟩

theorem suffix_head_mem {s l w : List Char} {c : Char} (h : s <:+ l) (hc : s = c :: w) :
    c ∈ l := by
  subst hc
  exact h.sublist.subset (List.mem_cons_self c w)

/-- Classification of the nonempty suffixes of a declaration region
`tailHdr kA ++ vA` (alphabetic knob, backslash-free value): a suffix
either starts at the interior backslash — and is then the whole knob part —
or starts with a non-backslash character. -/
theorem suffix_tailHdr_cases {kA vA s : List Char} (hkA : SimpleKnob kA)
    (hvA : bslash ∉ vA) (hs : s <:+ tailHdr kA ++ vA) (hne : s ≠ []) :
    s = bslash :: (kA ++ lbrace :: vA) ∨ ∃ c w, s = c :: w ∧ c ≠ bslash := by
  have hx : tailHdr kA ++ vA = 'd' :: 'e' :: 'f' :: bslash :: (kA ++ lbrace :: vA) := by
    simp [tailHdr]
  rw [hx] at hs
  rw [List.suffix_cons_iff] at hs
  rcases hs with rfl | hs
  · exact Or.inr ⟨_, _, rfl, by decide⟩
  rw [List.suffix_cons_iff] at hs
  rcases hs with rfl | hs
  · exact Or.inr ⟨_, _, rfl, by decide⟩
  rw [List.suffix_cons_iff] at hs
  rcases hs with rfl | hs
  · exact Or.inr ⟨_, _, rfl, by decide⟩
  rw [List.suffix_cons_iff] at hs
  rcases hs with rfl | hs
  · exact Or.inl rfl
  rcases suffix_append_cases hs with hs2 | ⟨a2, ha2, hne2, rfl⟩
  · rw [List.suffix_cons_iff] at hs2
    rcases hs2 with rfl | hs2
    · exact Or.inr ⟨_, _, rfl, by decide⟩
    · rcases s with _ | ⟨c, w⟩
      · exact absurd rfl hne
      · have hcv : c ∈ vA := suffix_head_mem hs2 rfl
        exact Or.inr ⟨c, w, rfl, fun hcb => hvA (hcb ▸ hcv)⟩
  · rcases a2 with _ | ⟨c, w2⟩
    · exact absurd rfl hne2
    · have hck : c ∈ kA := suffix_head_mem ha2 rfl
      have hca : c.isAlpha := hkA.2 c hck
      refine Or.inr ⟨c, w2 ++ lbrace :: vA, by rw [List.cons_append], ?_⟩
      intro hcb
      rw [hcb] at hca
      exact absurd hca (by decide)

/-- A substitution pass walks through a region none of whose suffixes
starts a match, emitting it verbatim. -/
theorem subKnob_pass (knob val : List Char) :
    ∀ X r, (∀ s, s <:+ X → s ≠ [] → matchKnob knob (s ++ r) = none) →
      subKnob knob val (X ++ r) = X ++ subKnob knob val r := by
  intro X
  induction X with
  | nil => intro r _; rw [List.nil_append, List.nil_append]
  | cons c X2 ih =>
    intro r hno
    have h1 : matchKnob knob (c :: (X2 ++ r)) = none := by
      have := hno (c :: X2) (List.suffix_refl _) (by simp)
      rw [List.cons_append] at this
      exact this
    have h2 : ∀ s, s <:+ X2 → s ≠ [] → matchKnob knob (s ++ r) = none :=
      fun s hsx hsne => hno s (hsx.trans (List.suffix_cons c X2)) hsne
    rw [List.cons_append, subKnob_none h1, ih r h2, List.cons_append]

/-- A substitution pass (for any knob) walks verbatim through a region
consisting of an alphabetic knob declaration up to and including its
closing brace, provided the declared value contains no backslash. -/
theorem pass_own_decl {kA vA : List Char} (hkA : SimpleKnob kA) (hvA : bslash ∉ vA)
    (knob val r : List Char) :
    subKnob knob val (tailHdr kA ++ (vA ++ rbrace :: r)) =
      tailHdr kA ++ (vA ++ rbrace :: subKnob knob val r) := by
  have hno : ∀ s, s <:+ tailHdr kA ++ vA → s ≠ [] →
      matchKnob knob (s ++ rbrace :: r) = none := by
    intro s hs hne
    rcases suffix_tailHdr_cases hkA hvA hs hne with rfl | ⟨c, w, rfl, hc⟩
    · apply matchKnob_not_prefix
      rw [List.cons_append, hdr_eq_cons, List.cons_prefix_cons]
      rintro ⟨-, hp⟩
      have hx : (kA ++ lbrace :: vA) ++ rbrace :: r =
          kA ++ lbrace :: (vA ++ rbrace :: r) := by simp
      rw [hx, tailHdr] at hp
      exact defbs_not_prefix_knob hkA _ _ hp
    · rw [List.cons_append]
      exact matchKnob_not_bslash _ hc
  have hmain := subKnob_pass knob val (tailHdr kA ++ vA) (rbrace :: r) hno
  rw [List.append_assoc] at hmain
  rw [hmain]
  have h2 : subKnob knob val (rbrace :: r) = rbrace :: subKnob knob val r :=
    subKnob_none (matchKnob_not_bslash _ (by decide))
  rw [h2, List.append_assoc]

/-- Scanning a text that begins with an empty-bodied declaration of the
knob leaves the declaration alone and continues after it: the body pattern
demands at least one character. -/
theorem subKnob_empty_decl {k : List Char} (hk : SimpleKnob k) (val s : List Char) :
    subKnob k val (hdr k ++ rbrace :: s) = hdr k ++ rbrace :: subKnob k val s := by
  have h1 : matchKnob k (bslash :: (tailHdr k ++ rbrace :: s)) = none := by
    have := matchKnob_empty_body k s
    rw [hdr_eq_cons, List.cons_append] at this
    exact this
  have h2 := @pass_own_decl k [] hk (by simp) k val s
  simp only [List.nil_append] at h2
  rw [hdr_eq_cons, List.cons_append, subKnob_none h1, h2, List.cons_append]

/-- Scanning a freshly rewritten declaration of the same knob with the
same brace-free value leaves it unchanged (given the tail is already
stable). -/
theorem subKnob_fresh_stable {k v s : List Char} (hk : SimpleKnob k) (hv : rbrace ∉ v)
    (hs : subKnob k v s = s) :
    subKnob k v (hdr k ++ v ++ rbrace :: s) = hdr k ++ v ++ rbrace :: s := by
  rcases Decidable.em (v = []) with rfl | hvne
  · rw [List.append_nil]
    rw [subKnob_empty_decl hk [] s, hs]
  · rw [subKnob_match (matchKnob_insert hv hvne s), hs]

theorem matchKnob_foreign_hdr {k1 k2 : List Char} (hk1 : SimpleKnob k1)
    (hk2 : SimpleKnob k2) (hne : k1 ≠ k2) (w : List Char) :
    matchKnob k1 (hdr k2 ++ w) = none := by
  apply matchKnob_not_prefix
  rw [hdr_eq_cons, hdr_eq_cons, List.cons_append, List.cons_prefix_cons]
  rintro ⟨-, hp⟩
  rw [tailHdr, tailHdr] at hp
  simp only [List.cons_append, List.cons_prefix_cons, true_and] at hp
  have hx : (k2 ++ [lbrace]) ++ w = k2 ++ lbrace :: w := by simp
  rw [hx] at hp
  exact knob_not_prefix_knob hk1 hk2 hne w hp

theorem subKnob_no_rbrace {knob val : List Char} :
    ∀ t, rbrace ∉ t → subKnob knob val t = t := by
  intro t
  induction t with
  | nil => intro _; rfl
  | cons c t2 ih =>
    intro hm
    have h1 : matchKnob knob (c :: t2) = none := matchKnob_no_rbrace hm
    rw [subKnob_none h1, ih (fun hx => hm (List.mem_cons_of_mem c hx))]

/-- Inversion of a failed match: the header is not there, or the body is
empty, or there is no closing brace in what follows the header. -/
theorem matchKnob_none_cases {knob t : List Char} (h : matchKnob knob t = none) :
    ¬ hdr knob <+: t ∨ (∃ s, t = hdr knob ++ rbrace :: s) ∨
      (∃ u, t = hdr knob ++ u ∧ rbrace ∉ u) := by
  by_cases hp : hdr knob <+: t
  · right
    obtain ⟨w, hw⟩ := hp
    have hu : t.drop (hdr knob).length = w := by rw [← hw, List.drop_left]
    rw [matchKnob, if_pos ⟨w, hw⟩] at h
    simp only [hu] at h
    by_cases hb : w.takeWhile nrb = []
    · rcases w with _ | ⟨c, w2⟩
      · right
        exact ⟨[], by rw [← hw], by simp⟩
      · rw [List.takeWhile_cons] at hb
        by_cases hc : nrb c = true
        · rw [if_pos hc] at hb; exact absurd hb (by simp)
        · have hc2 : c = rbrace := by
            by_contra hne
            exact hc (nrb_eq_true.mpr hne)
          left
          exact ⟨w2, by rw [← hw, hc2]⟩
    · rw [if_neg hb] at h
      rcases hd : w.dropWhile nrb with _ | ⟨c, r⟩
      · right
        refine ⟨w, hw.symm, ?_⟩
        intro hm
        have hall : nrb rbrace = true := by
          have h3 := List.takeWhile_append_dropWhile nrb w
          rw [hd, List.append_nil] at h3
          exact List.mem_takeWhile_imp (h3 ▸ hm)
        rw [nrb_rbrace] at hall
        exact absurd hall (by simp)
      · rw [hd] at h
        exact absurd h (by simp)
  · exact Or.inl hp

/-- Substituting (any knob, any value) in `t` cannot create a new
occurrence of a pattern-header fragment at a position where none was:
if a nonempty suffix `p` of `tailHdr k1` is not a prefix of `t`, it is not
a prefix of the rewritten `t` either. -/
theorem no_new_prefix_aux {k1 : List Char} (hk1 : SimpleKnob k1) (k2 val2 : List Char) :
    ∀ n t p, t.length ≤ n → p <:+ tailHdr k1 → p ≠ [] → ¬ p <+: t →
      ¬ p <+: subKnob k2 val2 t := by
  intro n
  induction n with
  | zero =>
    intro t p hlen _ _ hnp
    have ht : t = [] := List.length_eq_zero.mp (Nat.le_zero.mp hlen)
    subst ht
    rw [subKnob_nil]
    exact hnp
  | succ n ih =>
    intro t p hlen hsuf hne hnp
    rcases hm : matchKnob k2 t with _ | ⟨b, r⟩
    · rcases t with _ | ⟨c, t2⟩
      · rw [subKnob_nil]; exact hnp
      · rw [subKnob_none hm]
        intro hp2
        rcases p with _ | ⟨a, p2⟩
        · exact hne rfl
        · rw [List.cons_prefix_cons] at hp2
          obtain ⟨rfl, hp3⟩ := hp2
          rcases Decidable.em (p2 = []) with rfl | hp2ne
          · exact hnp (by rw [List.cons_prefix_cons]; exact ⟨rfl, List.nil_prefix⟩)
          · have hsuf2 : p2 <:+ tailHdr k1 := (List.suffix_cons a p2).trans hsuf
            have hnp2 : ¬ p2 <+: t2 := by
              intro hq
              exact hnp (by rw [List.cons_prefix_cons]; exact ⟨rfl, hq⟩)
            have hlen2 : t2.length ≤ n := by
              simp only [List.length_cons] at hlen; omega
            exact ih t2 p2 hlen2 hsuf2 hp2ne hnp2 hp3
    · rw [subKnob_match hm]
      intro hp2
      rcases p with _ | ⟨a, p2⟩
      · exact hne rfl
      · rw [hdr_eq_cons, List.cons_append, List.cons_append,
          List.cons_prefix_cons] at hp2
        obtain ⟨rfl, hp3⟩ := hp2
        have hp2eq : p2 = k1 ++ lbrace :: [] := by
          rcases suffix_tailHdr_cases hk1 (show bslash ∉ ([] : List Char) by simp)
              (by rw [List.append_nil]; exact hsuf) hne with heq | ⟨c, w, heq, hcb⟩
          · injection heq with _ h2
          · injection heq with h1 _
            exact absurd h1.symm hcb
        rw [hp2eq] at hp3
        have hx : (tailHdr k2 ++ val2) ++ rbrace :: subKnob k2 val2 r =
            'd' :: 'e' :: 'f' :: bslash ::
              (((k2 ++ [lbrace]) ++ val2) ++ rbrace :: subKnob k2 val2 r) := by
          simp [tailHdr]
        rw [hx] at hp3
        have := knob_not_prefix_defbs hk1
          (((k2 ++ [lbrace]) ++ val2) ++ rbrace :: subKnob k2 val2 r)
        rw [show k1 ++ [lbrace] = k1 ++ lbrace :: [] from rfl] at this
        exact this hp3

/-- A position where the scan for `k1` found no match still has no match
after any other substitution pass rewrote the tail. -/
theorem matchKnob_none_preserved {k1 : List Char} (hk1 : SimpleKnob k1)
    (k2 val2 : List Char) {c : Char} {t2 : List Char}
    (h : matchKnob k1 (c :: t2) = none) :
    matchKnob k1 (c :: subKnob k2 val2 t2) = none := by
  rcases matchKnob_none_cases h with hp | ⟨s, hs⟩ | ⟨u, hu, hru⟩
  · rcases Decidable.em (c = bslash) with rfl | hc
    · apply matchKnob_not_prefix
      rw [hdr_eq_cons, List.cons_prefix_cons]
      rintro ⟨-, hp2⟩
      have hnp : ¬ tailHdr k1 <+: t2 := by
        intro hq
        exact hp (by rw [hdr_eq_cons, List.cons_prefix_cons]; exact ⟨rfl, hq⟩)
      exact no_new_prefix_aux hk1 k2 val2 t2.length t2 (tailHdr k1) (le_refl _)
        (List.suffix_refl _) (by simp [tailHdr]) hnp hp2
    · exact matchKnob_not_bslash _ hc
  · rw [hdr_eq_cons, List.cons_append] at hs
    injection hs with hs1 hs2
    subst hs1
    subst hs2
    have h2 := @pass_own_decl k1 [] hk1 (by simp) k2 val2 s
    simp only [List.nil_append] at h2
    rw [h2]
    have h3 := matchKnob_empty_body k1 (subKnob k2 val2 s)
    rw [hdr_eq_cons, List.cons_append] at h3
    exact h3
  · have hnot2 : rbrace ∉ t2 := by
      intro hmem
      have : rbrace ∈ c :: t2 := List.mem_cons_of_mem c hmem
      rw [hu] at this
      rcases List.mem_append.mp this with hm1 | hm2
      · exact hdr_no_rbrace hk1 hm1
      · exact hru hm2
    rw [subKnob_no_rbrace t2 hnot2]
    exact h

theorem append_rbrace_cancel {v b x y : List Char} (hv : rbrace ∉ v) (hb : rbrace ∉ b)
    (h : v ++ rbrace :: x = b ++ rbrace :: y) : v = b ∧ x = y := by
  induction v generalizing b with
  | nil =>
    rcases b with _ | ⟨c, b2⟩
    · rw [List.nil_append, List.nil_append] at h
      injection h with _ h2
      exact ⟨rfl, h2⟩
    · rw [List.nil_append, List.cons_append] at h
      injection h with h1 _
      exfalso
      apply hb
      rw [← h1]
      exact List.mem_cons_self rbrace b2
  | cons a v2 ih =>
    rcases b with _ | ⟨c, b2⟩
    · rw [List.cons_append, List.nil_append] at h
      injection h with h1 _
      exfalso
      apply hv
      rw [h1]
      exact List.mem_cons_self rbrace v2
    · rw [List.cons_append, List.cons_append] at h
      injection h with h1 h2
      have hv2 : rbrace ∉ v2 := fun hm => hv (List.mem_cons_of_mem a hm)
      have hb2 : rbrace ∉ b2 := fun hm => hb (List.mem_cons_of_mem c hm)
      obtain ⟨he, hxy⟩ := ih hv2 hb2 h2
      exact ⟨by rw [h1, he], hxy⟩

/-- The scan of `subKnob` for a knob, viewed as a reachability relation on
positions (suffixes) of the text. -/
inductive Reaches (knob : List Char) : List Char → List Char → Prop where
  | refl (t : List Char) : Reaches knob t t
  | step_none {c : Char} {t2 r : List Char} :
      matchKnob knob (c :: t2) = none → Reaches knob t2 r → Reaches knob (c :: t2) r
  | step_match {t b r2 r : List Char} :
      matchKnob knob t = some (b, r2) → Reaches knob r2 r → Reaches knob t r

/-- A fixed point of the substitution is a fixed point at every position
its scan reaches. -/
theorem stable_reaches {knob val : List Char} (hval : rbrace ∉ val) :
    ∀ {t r : List Char}, Reaches knob t r → subKnob knob val t = t →
      subKnob knob val r = r := by
  intro t r hr
  induction hr with
  | refl t => intro ht; exact ht
  | step_none hnone _ ih =>
    intro ht
    rw [subKnob_none hnone] at ht
    injection ht with _ ht2
    exact ih ht2
  | step_match hmk _ ih =>
    intro ht
    rw [subKnob_match hmk] at ht
    obtain ⟨hdec, hbne, hbnr⟩ := matchKnob_some hmk
    rw [hdec] at ht
    rw [List.append_assoc, List.append_assoc] at ht
    have ht2 := List.append_cancel_left ht
    have hbr : rbrace ∉ _ := fun hm => (hbnr rbrace hm) rfl
    obtain ⟨-, hst⟩ := append_rbrace_cancel hval hbr ht2
    exact ih hst

/-- The scan always reaches the position just after the first closing
brace of the text. -/
theorem reaches_after_rbrace {knob : List Char} (hk : SimpleKnob knob) :
    ∀ n X r, X.length ≤ n → rbrace ∉ X → Reaches knob (X ++ rbrace :: r) r := by
  intro n
  induction n with
  | zero =>
    intro X r hlen _
    have hX : X = [] := List.length_eq_zero.mp (Nat.le_zero.mp hlen)
    subst hX
    rw [List.nil_append]
    exact Reaches.step_none (matchKnob_not_bslash _ (by decide)) (Reaches.refl r)
  | succ n ih =>
    intro X r hlen hX
    rcases X with _ | ⟨c, X2⟩
    · rw [List.nil_append]
      exact Reaches.step_none (matchKnob_not_bslash _ (by decide)) (Reaches.refl r)
    · rcases hm : matchKnob knob ((c :: X2) ++ rbrace :: r) with _ | ⟨b, r2⟩
      · rw [List.cons_append] at hm ⊢
        refine Reaches.step_none hm ?_
        have hX2 : rbrace ∉ X2 := fun h2 => hX (List.mem_cons_of_mem c h2)
        have hlen2 : X2.length ≤ n := by simp only [List.length_cons] at hlen; omega
        exact ih X2 r hlen2 hX2
      · obtain ⟨hdec, hbne, hbnr⟩ := matchKnob_some hm
        have hnb : rbrace ∉ hdr knob ++ b := by
          intro hmem
          rcases List.mem_append.mp hmem with h1 | h2
          · exact hdr_no_rbrace hk h1
          · exact (hbnr rbrace h2) rfl
        obtain ⟨-, hrr⟩ := append_rbrace_cancel hX hnb hdec
        exact Reaches.step_match hm (by rw [hrr]; exact Reaches.refl r2)

/-- A single-knob substitution pass is idempotent when the knob is an
alphabetic control word and the value contains no closing brace. -/
theorem subKnob_idem_aux {knob val : List Char} (hk : SimpleKnob knob)
    (hval : rbrace ∉ val) :
    ∀ n t, t.length ≤ n →
      subKnob knob val (subKnob knob val t) = subKnob knob val t := by
  intro n
  induction n with
  | zero =>
    intro t hlen
    have ht : t = [] := List.length_eq_zero.mp (Nat.le_zero.mp hlen)
    subst ht
    rw [subKnob_nil, subKnob_nil]
  | succ n ih =>
    intro t hlen
    rcases hm : matchKnob knob t with _ | ⟨b, r⟩
    · rcases t with _ | ⟨c, t2⟩
      · rw [subKnob_nil, subKnob_nil]
      · rw [subKnob_none hm]
        have h2 : matchKnob knob (c :: subKnob knob val t2) = none :=
          matchKnob_none_preserved hk knob val hm
        have hlen2 : t2.length ≤ n := by simp only [List.length_cons] at hlen; omega
        rw [subKnob_none h2, ih t2 hlen2]
    · rw [subKnob_match hm]
      have hr := matchKnob_rest_length hm
      have hlen2 : r.length ≤ n := by omega
      exact subKnob_fresh_stable hk hval (ih r hlen2)

/-- A substitution pass for a different knob preserves fixed points of
this knob's pass, when both knobs are alphabetic control words and both
values are brace- and backslash-free. -/
theorem subKnob_stable_foreign {k1 v1 k2 v2 : List Char} (hk1 : SimpleKnob k1)
    (hk2 : SimpleKnob k2) (hne : k1 ≠ k2) (hv1r : rbrace ∉ v1) (hv1b : bslash ∉ v1)
    (hv2b : bslash ∉ v2) :
    ∀ n t, t.length ≤ n → subKnob k1 v1 t = t →
      subKnob k1 v1 (subKnob k2 v2 t) = subKnob k2 v2 t := by
  intro n
  induction n with
  | zero =>
    intro t hlen _
    have ht : t = [] := List.length_eq_zero.mp (Nat.le_zero.mp hlen)
    subst ht
    rw [subKnob_nil, subKnob_nil]
  | succ n ih =>
    intro t hlen ht
    rcases hm2 : matchKnob k2 t with _ | ⟨b2, r2⟩
    · rcases t with _ | ⟨c, t2⟩
      · rw [subKnob_nil, subKnob_nil]
      · rw [subKnob_none hm2]
        rcases hm1 : matchKnob k1 (c :: t2) with _ | ⟨b1, r1⟩
        · rw [subKnob_none hm1] at ht
          injection ht with _ ht2
          have hlen2 : t2.length ≤ n := by simp only [List.length_cons] at hlen; omega
          have hnone2 : matchKnob k1 (c :: subKnob k2 v2 t2) = none :=
            matchKnob_none_preserved hk1 k2 v2 hm1
          rw [subKnob_none hnone2, ih t2 hlen2 ht2]
        · obtain ⟨hdec, hb1ne, hb1nr⟩ := matchKnob_some hm1
          rw [subKnob_match hm1, hdec] at ht
          rw [List.append_assoc, List.append_assoc] at ht
          have ht2 := List.append_cancel_left ht
          have hb1r : rbrace ∉ b1 := fun hm => (hb1nr rbrace hm) rfl
          obtain ⟨hveq, hstr1⟩ := append_rbrace_cancel hv1r hb1r ht2
          subst hveq
          have hcb : c = bslash ∧ t2 = tailHdr k1 ++ (v1 ++ rbrace :: r1) := by
            rw [hdr_eq_cons, List.cons_append, List.cons_append] at hdec
            injection hdec with hc ht3
            exact ⟨hc, by rw [ht3, List.append_assoc]⟩
          obtain ⟨rfl, ht2eq⟩ := hcb
          have hlenr1 : r1.length ≤ n := by
            have := matchKnob_rest_length hm1
            simp only [List.length_cons] at hlen this
            omega
          have hstar := ih r1 hlenr1 hstr1
          rw [ht2eq, pass_own_decl hk1 hv1b k2 v2 r1]
          have hform : bslash :: (tailHdr k1 ++ (v1 ++ rbrace :: subKnob k2 v2 r1)) =
              hdr k1 ++ v1 ++ rbrace :: subKnob k2 v2 r1 := by
            simp [hdr_eq_cons, List.cons_append, List.append_assoc]
          rw [hform]
          exact subKnob_fresh_stable hk1 hv1r hstar
    · rw [subKnob_match hm2]
      obtain ⟨hdec2, hb2ne, hb2nr⟩ := matchKnob_some hm2
      have hb2r : rbrace ∉ b2 := fun hm => (hb2nr rbrace hm) rfl
      have hnb : rbrace ∉ hdr k2 ++ b2 := by
        intro hmem
        rcases List.mem_append.mp hmem with h1 | h2
        · exact hdr_no_rbrace hk2 h1
        · exact hb2r h2
      have hreach : Reaches k1 t r2 := by
        rw [hdec2]
        exact reaches_after_rbrace hk1 (hdr k2 ++ b2).length _ r2 (le_refl _) hnb
      have hstr2 : subKnob k1 v1 r2 = r2 := stable_reaches hv1r hreach ht
      have hlenr2 : r2.length ≤ n := by
        have := matchKnob_rest_length hm2
        omega
      have hstar := ih r2 hlenr2 hstr2
      have hconsform : (hdr k2 ++ v2) ++ rbrace :: subKnob k2 v2 r2 =
          bslash :: (tailHdr k2 ++ (v2 ++ rbrace :: subKnob k2 v2 r2)) := by
        simp [hdr_eq_cons, List.cons_append, List.append_assoc]
      have hnm : matchKnob k1
          (bslash :: (tailHdr k2 ++ (v2 ++ rbrace :: subKnob k2 v2 r2))) = none := by
        rw [← hconsform, List.append_assoc]
        exact matchKnob_foreign_hdr hk1 hk2 hne _
      rw [show hdr k2 ++ v2 ++ rbrace :: subKnob k2 v2 r2 =
          bslash :: (tailHdr k2 ++ (v2 ++ rbrace :: subKnob k2 v2 r2)) from hconsform]
      rw [subKnob_none hnm, pass_own_decl hk2 hv2b k1 v1 (subKnob k2 v2 r2), hstar]

theorem subKnob_idem {knob val : List Char} (hk : SimpleKnob knob)
    (hval : rbrace ∉ val) (t : List Char) :
    subKnob knob val (subKnob knob val t) = subKnob knob val t :=
  subKnob_idem_aux hk hval t.length t (le_refl _)

/-- A value that can be written into a knob declaration and stay inert:
no closing brace (which would terminate the declaration early) and no
backslash (which `re.sub` would treat as an escape in the replacement
template). -/
def NiceVal (v : List Char) : Prop := rbrace ∉ v ∧ bslash ∉ v

instance (v : List Char) : Decidable (NiceVal v) := by
  unfold NiceVal
  infer_instance

theorem tweak_knobs_cons (kv : List Char × List Char)
    (adjust : List (List Char × List Char)) (txt : List Char) :
    tweak_knobs (kv :: adjust) txt = tweak_knobs adjust (subKnob kv.1 kv.2 txt) := rfl

theorem tweak_knobs_fixed :
    ∀ adjust txt, (∀ kv ∈ adjust, subKnob kv.1 kv.2 txt = txt) →
      tweak_knobs adjust txt = txt := by
  intro adjust
  induction adjust with
  | nil => intro txt _; rfl
  | cons kv rest ih =>
    intro txt hall
    rw [tweak_knobs_cons, hall kv (List.mem_cons_self kv rest)]
    exact ih txt (fun kv2 h2 => hall kv2 (List.mem_cons_of_mem kv h2))

theorem stable_after_fold {k v : List Char} (hk : SimpleKnob k) (hvr : rbrace ∉ v)
    (hvb : bslash ∉ v) :
    ∀ adjust txt, (∀ kv ∈ adjust, SimpleKnob kv.1 ∧ NiceVal kv.2 ∧ kv.1 ≠ k) →
      subKnob k v txt = txt →
      subKnob k v (tweak_knobs adjust txt) = tweak_knobs adjust txt := by
  intro adjust
  induction adjust with
  | nil => intro txt _ h; exact h
  | cons kv rest ih =>
    intro txt hall hst
    rw [tweak_knobs_cons]
    obtain ⟨hk2, ⟨hv2r, hv2b⟩, hne2⟩ := hall kv (List.mem_cons_self kv rest)
    have hst2 : subKnob k v (subKnob kv.1 kv.2 txt) = subKnob kv.1 kv.2 txt :=
      subKnob_stable_foreign hk hk2 (Ne.symm hne2) hvr hvb hv2b
        txt.length txt (le_refl _) hst
    exact ih (subKnob kv.1 kv.2 txt)
      (fun kv2 h2 => hall kv2 (List.mem_cons_of_mem kv h2)) hst2

theorem all_stable_after_tweak :
    ∀ adjust txt, (∀ kv ∈ adjust, SimpleKnob kv.1 ∧ NiceVal kv.2) →
      adjust.Pairwise (fun a b => a.1 ≠ b.1) →
      ∀ kv ∈ adjust,
        subKnob kv.1 kv.2 (tweak_knobs adjust txt) = tweak_knobs adjust txt := by
  intro adjust
  induction adjust with
  | nil => intro txt _ _ kv hkv; exact absurd hkv (List.not_mem_nil kv)
  | cons kv0 rest ih =>
    intro txt hall hpw kv hkv
    rw [List.pairwise_cons] at hpw
    obtain ⟨hpw0, hpwrest⟩ := hpw
    rw [tweak_knobs_cons]
    rcases List.mem_cons.mp hkv with rfl | hmem
    · obtain ⟨hk0, hv0r, hv0b⟩ := hall kv (List.mem_cons_self kv rest)
      have hidem := subKnob_idem hk0 hv0r txt
      refine stable_after_fold hk0 hv0r hv0b rest (subKnob kv.1 kv.2 txt) ?_ hidem
      intro kv2 h2
      obtain ⟨hs2, hn2⟩ := hall kv2 (List.mem_cons_of_mem kv h2)
      exact ⟨hs2, hn2, (hpw0 kv2 h2).symm⟩
    · exact ih (subKnob kv0.1 kv0.2 txt)
        (fun kv2 h2 => hall kv2 (List.mem_cons_of_mem kv0 h2)) hpwrest kv hmem

/-! ### Claim theorems C5 and C9 -/

/-- C5 counterexample: for the assignment mapping `k := 1<rb>2` (a value
containing a closing brace), applying `tweak_knobs` twice to the
description `\def\k<lb>0<rb>` yields a different text than applying it
once — the claimed idempotence for every knob-assignment mapping fails on
the code. -/
theorem tweak_knobs_twice_differs :
    tweak_knobs [(['k'], ['1', rbrace, '2'])]
        (tweak_knobs [(['k'], ['1', rbrace, '2'])] (hdr ['k'] ++ ['0', rbrace])) ≠
      tweak_knobs [(['k'], ['1', rbrace, '2'])] (hdr ['k'] ++ ['0', rbrace]) := by
  decide

/-- C5 (amended): applying a knob-assignment mapping twice in sequence
yields exactly the same description text as applying it once, provided the
knob names are distinct alphabetic control words and the assigned values
contain neither a closing brace nor a backslash (all the assignments the
heuristic policy produces are of this shape). -/
theorem tweak_knobs_idempotent (adjust : List (List Char × List Char))
    (hall : ∀ kv ∈ adjust, SimpleKnob kv.1 ∧ NiceVal kv.2)
    (hpw : adjust.Pairwise (fun a b => a.1 ≠ b.1)) (txt : List Char) :
    tweak_knobs adjust (tweak_knobs adjust txt) = tweak_knobs adjust txt :=
  tweak_knobs_fixed adjust (tweak_knobs adjust txt)
    (all_stable_after_tweak adjust txt hall hpw)

/-- Witness for the amended C5: the policy's own spring bucket applied to a
description declaring both knobs. -/
theorem tweak_knobs_idempotent_witness :
    tweak_knobs [(springAmp, "0.8".toList), (springTurns, "12".toList)]
        (tweak_knobs [(springAmp, "0.8".toList), (springTurns, "12".toList)]
          (hdr springAmp ++ '1' :: rbrace :: (hdr springTurns ++ '9' :: [rbrace]))) =
      tweak_knobs [(springAmp, "0.8".toList), (springTurns, "12".toList)]
        (hdr springAmp ++ '1' :: rbrace :: (hdr springTurns ++ '9' :: [rbrace])) :=
  tweak_knobs_idempotent _ (by decide) (by decide) _

/-- C9: a knob whose declaration in the description has an empty value
block (nothing between the braces) is never rewritten: the body pattern
`[^<rb>]+` requires at least one character, so applying any assignment to
that knob leaves the declaration unchanged even though the knob textually
exists in the description. -/
theorem empty_valued_knob_untouched (knob val : List Char) (hk : SimpleKnob knob) :
    subKnob knob val (hdr knob ++ [rbrace]) = hdr knob ++ [rbrace] := by
  have h := subKnob_empty_decl hk val []
  rw [subKnob_nil] at h
  exact h

/-- Witness for C9: the `springAmp` declaration with an empty value block
survives an attempted assignment of `0.8`. -/
theorem empty_valued_knob_untouched_witness :
    subKnob springAmp "0.8".toList (hdr springAmp ++ [rbrace]) =
      hdr springAmp ++ [rbrace] :=
  empty_valued_knob_untouched springAmp "0.8".toList (by decide)

/-! ### Similarity evaluator (tikzbot.py lines 35-47)

`to_gray` decodes an image into a single-channel intensity matrix, so the
evaluator works on grayscale rasters.  An image is modelled as its pixel
dimensions plus an intensity function (`uint8` intensities as naturals;
indices outside the raster never influence any statement below).
`ssim_score` calls skimage's `structural_similarity` with its default
parameters for 8-bit grayscale inputs: uniform 7x7 windows, sample
covariance normalisation `N/(N-1)`, data range 255, `K1 = 0.01`,
`K2 = 0.03`, and the mean of the windowed similarity map over the valid
region (the crop that drops the half-window border of width 3).  That
computation is embedded below over exact rationals. -/

structure Img where
  height : ℕ
  width : ℕ
  pix : ℕ → ℕ → ℕ

/-- Sum of an intensity function over the 7x7 window whose top-left
corner is `(i, j)`. -/
def wsum (f : ℕ → ℕ → ℕ) (i j : ℕ) : ℕ :=
  ∑ a ∈ Finset.range 7, ∑ b ∈ Finset.range 7, f (i + a) (j + b)

/-- Sum of squared intensities over the window. -/
def wsum2 (f : ℕ → ℕ → ℕ) (i j : ℕ) : ℕ :=
  ∑ a ∈ Finset.range 7, ∑ b ∈ Finset.range 7, f (i + a) (j + b) ^ 2

/-- Sum of products of two intensity functions over the window. -/
def wsumProd (f g : ℕ → ℕ → ℕ) (i j : ℕ) : ℕ :=
  ∑ a ∈ Finset.range 7, ∑ b ∈ Finset.range 7, f (i + a) (j + b) * g (i + a) (j + b)

/-- The constant `C1 = (K1 * data_range)^2 = (0.01 * 255)^2`. -/
def ssimC1 : ℚ := 2601 / 400

/-- The constant `C2 = (K2 * data_range)^2 = (0.03 * 255)^2`. -/
def ssimC2 : ℚ := 23409 / 400

/-- Local window mean `ux` of an intensity function. -/
def ssimUx (f : ℕ → ℕ → ℕ) (i j : ℕ) : ℚ := (wsum f i j : ℚ) / 49

/-- Local sample variance `vx = (N/(N-1)) (uxx - ux^2)`. -/
def ssimVx (f : ℕ → ℕ → ℕ) (i j : ℕ) : ℚ :=
  (49 / 48) * ((wsum2 f i j : ℚ) / 49 - ssimUx f i j ^ 2)

/-- Local sample covariance `vxy = (N/(N-1)) (uxy - ux uy)`. -/
def ssimVxy (f g : ℕ → ℕ → ℕ) (i j : ℕ) : ℚ :=
  (49 / 48) * ((wsumProd f g i j : ℚ) / 49 - ssimUx f i j * ssimUx g i j)

/-- The SSIM value of one window:
`S = ((2 ux uy + C1)(2 vxy + C2)) / ((ux^2 + uy^2 + C1)(vx + vy + C2))`. -/
def ssimWindow (f g : ℕ → ℕ → ℕ) (i j : ℕ) : ℚ :=
  ((2 * ssimUx f i j * ssimUx g i j + ssimC1) * (2 * ssimVxy f g i j + ssimC2)) /
    ((ssimUx f i j ^ 2 + ssimUx g i j ^ 2 + ssimC1) *
      (ssimVx f i j + ssimVx g i j + ssimC2))

/-- The value `structural_similarity(a, b)` for same-shaped grayscale rasters: the
mean of the window map over the crop that excludes the half-window border
(window top-left corners `0 ≤ i < h-6`, `0 ≤ j < w-6`). -/
def mssim (a b : Img) : ℚ :=
  (∑ i ∈ Finset.range (a.height - 6), ∑ j ∈ Finset.range (a.width - 6),
      ssimWindow a.pix b.pix i j) /
    (((a.height - 6) * (a.width - 6) : ℕ) : ℚ)

/-- The call `cv2.resize(b, (w, h))`: a fresh image of the requested dimensions
sampled from `b` (modelled with nearest-neighbour index mapping; no stated
property depends on the interpolated values, only on the dimensions and on
the result being a new image). -/
def cvResize (b : Img) (w h : ℕ) : Img :=
  ⟨h, w, fun i j => b.pix (i * b.height / h) (j * b.width / w)⟩

/-- The shape `(rows, cols)` of a grayscale raster, as in `a.shape`. -/
def imgShape (a : Img) : ℕ × ℕ := (a.height, a.width)

/-- The alignment step of `ssim_score` (tikzbot.py lines 44-45): when the
shapes differ, the candidate `b` is resized to the target's dimensions
`(a.shape[1], a.shape[0])`; the target `a` is passed through untouched. -/
def alignForSsim (a b : Img) : Img × Img :=
  if imgShape a ≠ imgShape b then (a, cvResize b a.width a.height) else (a, b)

/-- The evaluator `ssim_score` (tikzbot.py lines 43-47). -/
def ssim_score (a b : Img) : ℚ :=
  mssim (alignForSsim a b).1 (alignForSsim a b).2

/-! ### Claim theorem C7 -/

/-- C7: for a target/candidate pair with differing pixel dimensions, only
the candidate is resized: the pair actually scored is the untouched target
together with the candidate resized to the target's dimensions, and the
resized candidate has exactly the target's shape. -/
theorem resize_only_candidate (a b : Img) (h : imgShape a ≠ imgShape b) :
    (alignForSsim a b).1 = a ∧
      (alignForSsim a b).2 = cvResize b a.width a.height ∧
      imgShape (alignForSsim a b).2 = imgShape a ∧
      ssim_score a b = mssim a (cvResize b a.width a.height) := by
  rw [ssim_score, alignForSsim, if_pos h]
  exact ⟨rfl, rfl, rfl, rfl⟩

/-- A uniform white raster of the given dimensions. -/
def whiteImg (h w : ℕ) : Img := ⟨h, w, fun _ _ => 255⟩

/-- Witness for C7 at a 7x7 target and an 8x9 candidate. -/
theorem resize_only_candidate_witness :
    (alignForSsim (whiteImg 7 7) (whiteImg 8 9)).1 = whiteImg 7 7 ∧
      (alignForSsim (whiteImg 7 7) (whiteImg 8 9)).2 = cvResize (whiteImg 8 9) 7 7 ∧
      imgShape (alignForSsim (whiteImg 7 7) (whiteImg 8 9)).2 =
        imgShape (whiteImg 7 7) ∧
      ssim_score (whiteImg 7 7) (whiteImg 8 9) =
        mssim (whiteImg 7 7) (cvResize (whiteImg 8 9) 7 7) :=
  resize_only_candidate (whiteImg 7 7) (whiteImg 8 9) (by decide)

/-! ### Claim theorems C4 -/

/-- A 7x7 checkerboard: full intensity on even diagonals. -/
def checkerA : Img := ⟨7, 7, fun i j => if (i + j) % 2 = 0 then 255 else 0⟩

/-- The inverted 7x7 checkerboard. -/
def checkerB : Img := ⟨7, 7, fun i j => if (i + j) % 2 = 0 then 0 else 255⟩

/-- C4 counterexample: for the checkerboard target and its inversion the
evaluator returns a strictly negative score, so the claimed codomain
`[0, 1]` fails on the code (SSIM of anti-correlated rasters is negative). -/
theorem ssim_score_negative : ssim_score checkerA checkerB < 0 := by
  have hshape : ¬ imgShape checkerA ≠ imgShape checkerB := by decide
  rw [ssim_score, alignForSsim, if_neg hshape]
  have hm : mssim checkerA checkerB = ssimWindow checkerA.pix checkerB.pix 0 0 := by
    have hh : checkerA.height = 7 := rfl
    have hw : checkerA.width = 7 := rfl
    rw [mssim, hh, hw]
    norm_num [Finset.sum_range_one]
  have hsA : wsum checkerA.pix 0 0 = 6375 := by decide
  have hsB : wsum checkerB.pix 0 0 = 6120 := by decide
  have hs2A : wsum2 checkerA.pix 0 0 = 1625625 := by decide
  have hs2B : wsum2 checkerB.pix 0 0 = 1560600 := by decide
  have hsP : wsumProd checkerA.pix checkerB.pix 0 0 = 0 := by decide
  rw [hm]
  simp only [ssimWindow, ssimVx, ssimVxy, ssimUx, ssimC1, ssimC2, hsA, hsB,
    hs2A, hs2B, hsP]
  norm_num

/-! ### The range of the evaluator (amended C4) -/

theorem wsum_cast (f : ℕ → ℕ → ℕ) (i j : ℕ) :
    (wsum f i j : ℚ) =
      ∑ p ∈ Finset.range 7 ×ˢ Finset.range 7, (f (i + p.1) (j + p.2) : ℚ) := by
  rw [Finset.sum_product, wsum]
  push_cast
  rfl

theorem wsum2_cast (f : ℕ → ℕ → ℕ) (i j : ℕ) :
    (wsum2 f i j : ℚ) =
      ∑ p ∈ Finset.range 7 ×ˢ Finset.range 7, (f (i + p.1) (j + p.2) : ℚ) ^ 2 := by
  rw [Finset.sum_product, wsum2]
  push_cast
  rfl

theorem wsumProd_cast (f g : ℕ → ℕ → ℕ) (i j : ℕ) :
    (wsumProd f g i j : ℚ) =
      ∑ p ∈ Finset.range 7 ×ˢ Finset.range 7,
        (f (i + p.1) (j + p.2) : ℚ) * (g (i + p.1) (j + p.2) : ℚ) := by
  rw [Finset.sum_product, wsumProd]
  push_cast
  rfl

/-- Cauchy-Schwarz over one 7x7 window. -/
theorem window_cs (F : ℕ × ℕ → ℚ) :
    (∑ p ∈ Finset.range 7 ×ˢ Finset.range 7, F p) ^ 2 ≤
      49 * ∑ p ∈ Finset.range 7 ×ˢ Finset.range 7, F p ^ 2 := by
  have hcard : (((Finset.range 7 ×ˢ Finset.range 7).card : ℕ) : ℚ) = 49 := by simp
  calc (∑ p ∈ Finset.range 7 ×ˢ Finset.range 7, F p) ^ 2 ≤
      ((Finset.range 7 ×ˢ Finset.range 7).card : ℚ) *
        ∑ p ∈ Finset.range 7 ×ˢ Finset.range 7, F p ^ 2 := sq_sum_le_card_mul_sum_sq
    _ = 49 * ∑ p ∈ Finset.range 7 ×ˢ Finset.range 7, F p ^ 2 := by rw [hcard]

/-- Range of the per-window formula, in terms of the raw window sums:
each factor of the numerator is dominated by the matching factor of the
denominator. -/
theorem ssim_formula_bounds (sx sy sxx syy sxy : ℚ) (hsx : 0 ≤ sx) (hsy : 0 ≤ sy)
    (hP : sx ^ 2 ≤ 49 * sxx) (hQ : sy ^ 2 ≤ 49 * syy)
    (hd : (sx - sy) ^ 2 ≤ 49 * (sxx - 2 * sxy + syy))
    (he : (sx + sy) ^ 2 ≤ 49 * (sxx + 2 * sxy + syy)) :
    -1 ≤ ((2 * (sx / 49) * (sy / 49) + ssimC1) *
          (2 * ((49 / 48) * (sxy / 49 - (sx / 49) * (sy / 49))) + ssimC2)) /
        (((sx / 49) ^ 2 + (sy / 49) ^ 2 + ssimC1) *
          ((49 / 48) * (sxx / 49 - (sx / 49) ^ 2) +
            (49 / 48) * (syy / 49 - (sy / 49) ^ 2) + ssimC2)) ∧
      ((2 * (sx / 49) * (sy / 49) + ssimC1) *
          (2 * ((49 / 48) * (sxy / 49 - (sx / 49) * (sy / 49))) + ssimC2)) /
        (((sx / 49) ^ 2 + (sy / 49) ^ 2 + ssimC1) *
          ((49 / 48) * (sxx / 49 - (sx / 49) ^ 2) +
            (49 / 48) * (syy / 49 - (sy / 49) ^ 2) + ssimC2)) ≤ 1 := by
  have hc1 : (0:ℚ) < ssimC1 := by rw [ssimC1]; norm_num
  have hc2 : (0:ℚ) < ssimC2 := by rw [ssimC2]; norm_num
  have hA1 : 2 * (sx / 49) * (sy / 49) + ssimC1 =
      (2 * sx * sy + 2401 * ssimC1) / 2401 := by ring
  have hB1 : (sx / 49) ^ 2 + (sy / 49) ^ 2 + ssimC1 =
      (sx ^ 2 + sy ^ 2 + 2401 * ssimC1) / 2401 := by ring
  have hA2 : 2 * ((49 / 48) * (sxy / 49 - (sx / 49) * (sy / 49))) + ssimC2 =
      (2 * (49 * sxy - sx * sy) + 2352 * ssimC2) / 2352 := by ring
  have hB2 : (49 / 48) * (sxx / 49 - (sx / 49) ^ 2) +
      (49 / 48) * (syy / 49 - (sy / 49) ^ 2) + ssimC2 =
      ((49 * sxx - sx ^ 2) + (49 * syy - sy ^ 2) + 2352 * ssimC2) / 2352 := by ring
  rw [hA1, hA2, hB1, hB2]
  have hN1pos : 0 < 2 * sx * sy + 2401 * ssimC1 := by nlinarith
  have hD1 : 2 * sx * sy + 2401 * ssimC1 ≤ sx ^ 2 + sy ^ 2 + 2401 * ssimC1 := by
    nlinarith [two_mul_le_add_sq sx sy]
  have hD1pos : 0 < sx ^ 2 + sy ^ 2 + 2401 * ssimC1 := lt_of_lt_of_le hN1pos hD1
  have hD2pos : 0 < (49 * sxx - sx ^ 2) + (49 * syy - sy ^ 2) + 2352 * ssimC2 := by
    nlinarith
  have hupper : 2 * (49 * sxy - sx * sy) + 2352 * ssimC2 ≤
      (49 * sxx - sx ^ 2) + (49 * syy - sy ^ 2) + 2352 * ssimC2 := by
    nlinarith [hd]
  have hlower : -((49 * sxx - sx ^ 2) + (49 * syy - sy ^ 2) + 2352 * ssimC2) ≤
      2 * (49 * sxy - sx * sy) + 2352 * ssimC2 := by
    nlinarith [he]
  have hBpos : 0 < (sx ^ 2 + sy ^ 2 + 2401 * ssimC1) / 2401 *
      (((49 * sxx - sx ^ 2) + (49 * syy - sy ^ 2) + 2352 * ssimC2) / 2352) := by
    positivity
  have habs : |(2 * sx * sy + 2401 * ssimC1) / 2401 *
        ((2 * (49 * sxy - sx * sy) + 2352 * ssimC2) / 2352)| ≤
      (sx ^ 2 + sy ^ 2 + 2401 * ssimC1) / 2401 *
        (((49 * sxx - sx ^ 2) + (49 * syy - sy ^ 2) + 2352 * ssimC2) / 2352) := by
    rw [abs_mul, abs_div, abs_div]
    rw [abs_of_pos hN1pos]
    have h2401 : |(2401:ℚ)| = 2401 := by norm_num
    have h2352 : |(2352:ℚ)| = 2352 := by norm_num
    rw [h2401, h2352]
    have h2 : |2 * (49 * sxy - sx * sy) + 2352 * ssimC2| ≤
        (49 * sxx - sx ^ 2) + (49 * syy - sy ^ 2) + 2352 * ssimC2 :=
      abs_le.mpr ⟨by linarith, hupper⟩
    apply mul_le_mul
    · exact (div_le_div_iff_of_pos_right (by norm_num)).mpr hD1
    · exact (div_le_div_iff_of_pos_right (by norm_num)).mpr h2
    · positivity
    · positivity
  constructor
  · rw [le_div_iff₀ hBpos]
    have h3 := (abs_le.mp habs).1
    linarith
  · rw [div_le_one hBpos]
    exact le_trans (le_abs_self _) habs

/-- Every window's SSIM value lies in `[-1, 1]`. -/
theorem ssimWindow_bounds (f g : ℕ → ℕ → ℕ) (i j : ℕ) :
    -1 ≤ ssimWindow f g i j ∧ ssimWindow f g i j ≤ 1 := by
  have hsx : (0:ℚ) ≤ (wsum f i j : ℚ) := by positivity
  have hsy : (0:ℚ) ≤ (wsum g i j : ℚ) := by positivity
  have hP : (wsum f i j : ℚ) ^ 2 ≤ 49 * (wsum2 f i j : ℚ) := by
    rw [wsum_cast, wsum2_cast]
    exact window_cs _
  have hQ : (wsum g i j : ℚ) ^ 2 ≤ 49 * (wsum2 g i j : ℚ) := by
    rw [wsum_cast, wsum2_cast]
    exact window_cs _
  have hd : ((wsum f i j : ℚ) - (wsum g i j : ℚ)) ^ 2 ≤
      49 * ((wsum2 f i j : ℚ) - 2 * (wsumProd f g i j : ℚ) + (wsum2 g i j : ℚ)) := by
    have hsum : ∑ p ∈ Finset.range 7 ×ˢ Finset.range 7,
        ((f (i + p.1) (j + p.2) : ℚ) - (g (i + p.1) (j + p.2) : ℚ)) ^ 2 =
        (∑ p ∈ Finset.range 7 ×ˢ Finset.range 7, (f (i + p.1) (j + p.2) : ℚ) ^ 2) -
          2 * (∑ p ∈ Finset.range 7 ×ˢ Finset.range 7,
            (f (i + p.1) (j + p.2) : ℚ) * (g (i + p.1) (j + p.2) : ℚ)) +
          ∑ p ∈ Finset.range 7 ×ˢ Finset.range 7, (g (i + p.1) (j + p.2) : ℚ) ^ 2 := by
      rw [Finset.mul_sum, ← Finset.sum_sub_distrib, ← Finset.sum_add_distrib]
      exact Finset.sum_congr rfl (fun p _ => by ring)
    have h1 := window_cs
      (fun p => (f (i + p.1) (j + p.2) : ℚ) - (g (i + p.1) (j + p.2) : ℚ))
    rw [hsum, Finset.sum_sub_distrib] at h1
    rw [wsum_cast f, wsum_cast g, wsum2_cast f, wsum2_cast g, wsumProd_cast]
    exact h1
  have he : ((wsum f i j : ℚ) + (wsum g i j : ℚ)) ^ 2 ≤
      49 * ((wsum2 f i j : ℚ) + 2 * (wsumProd f g i j : ℚ) + (wsum2 g i j : ℚ)) := by
    have hsum : ∑ p ∈ Finset.range 7 ×ˢ Finset.range 7,
        ((f (i + p.1) (j + p.2) : ℚ) + (g (i + p.1) (j + p.2) : ℚ)) ^ 2 =
        (∑ p ∈ Finset.range 7 ×ˢ Finset.range 7, (f (i + p.1) (j + p.2) : ℚ) ^ 2) +
          2 * (∑ p ∈ Finset.range 7 ×ˢ Finset.range 7,
            (f (i + p.1) (j + p.2) : ℚ) * (g (i + p.1) (j + p.2) : ℚ)) +
          ∑ p ∈ Finset.range 7 ×ˢ Finset.range 7, (g (i + p.1) (j + p.2) : ℚ) ^ 2 := by
      rw [Finset.mul_sum, ← Finset.sum_add_distrib, ← Finset.sum_add_distrib]
      exact Finset.sum_congr rfl (fun p _ => by ring)
    have h1 := window_cs
      (fun p => (f (i + p.1) (j + p.2) : ℚ) + (g (i + p.1) (j + p.2) : ℚ))
    rw [hsum, Finset.sum_add_distrib] at h1
    rw [wsum_cast f, wsum_cast g, wsum2_cast f, wsum2_cast g, wsumProd_cast]
    exact h1
  have hmain := ssim_formula_bounds (wsum f i j : ℚ) (wsum g i j : ℚ)
    (wsum2 f i j : ℚ) (wsum2 g i j : ℚ) (wsumProd f g i j : ℚ)
    hsx hsy hP hQ hd he
  simpa only [ssimWindow, ssimUx, ssimVx, ssimVxy] using hmain

/-- The mean over the cropped window map lies in `[-1, 1]` whenever the
target raster admits at least one full window. -/
theorem mssim_bounds (a b : Img) (hh : 7 ≤ a.height) (hw : 7 ≤ a.width) :
    -1 ≤ mssim a b ∧ mssim a b ≤ 1 := by
  rw [mssim]
  have hR1 : 0 < a.height - 6 := by omega
  have hR2 : 0 < a.width - 6 := by omega
  have hdpos : (0:ℚ) < (((a.height - 6) * (a.width - 6) : ℕ) : ℚ) := by
    have : 0 < (a.height - 6) * (a.width - 6) := Nat.mul_pos hR1 hR2
    exact_mod_cast this
  have hub : ∑ i ∈ Finset.range (a.height - 6), ∑ j ∈ Finset.range (a.width - 6),
      ssimWindow a.pix b.pix i j ≤ (((a.height - 6) * (a.width - 6) : ℕ) : ℚ) := by
    calc ∑ i ∈ Finset.range (a.height - 6), ∑ j ∈ Finset.range (a.width - 6),
        ssimWindow a.pix b.pix i j ≤
          ∑ i ∈ Finset.range (a.height - 6), ((a.width - 6 : ℕ) : ℚ) := by
          apply Finset.sum_le_sum
          intro i _
          calc ∑ j ∈ Finset.range (a.width - 6), ssimWindow a.pix b.pix i j ≤
              (Finset.range (a.width - 6)).card • (1:ℚ) :=
                Finset.sum_le_card_nsmul _ _ _
                  (fun j _ => (ssimWindow_bounds a.pix b.pix i j).2)
            _ = ((a.width - 6 : ℕ) : ℚ) := by simp
      _ = (((a.height - 6) * (a.width - 6) : ℕ) : ℚ) := by
          rw [Finset.sum_const, Finset.card_range]
          push_cast
          ring
  have hlb : -(((a.height - 6) * (a.width - 6) : ℕ) : ℚ) ≤
      ∑ i ∈ Finset.range (a.height - 6), ∑ j ∈ Finset.range (a.width - 6),
        ssimWindow a.pix b.pix i j := by
    calc -(((a.height - 6) * (a.width - 6) : ℕ) : ℚ) =
        ∑ i ∈ Finset.range (a.height - 6), -((a.width - 6 : ℕ) : ℚ) := by
          rw [Finset.sum_const, Finset.card_range]
          push_cast
          ring
      _ ≤ ∑ i ∈ Finset.range (a.height - 6), ∑ j ∈ Finset.range (a.width - 6),
          ssimWindow a.pix b.pix i j := by
          apply Finset.sum_le_sum
          intro i _
          calc -((a.width - 6 : ℕ) : ℚ) = (Finset.range (a.width - 6)).card • (-1:ℚ) := by
                simp
            _ ≤ ∑ j ∈ Finset.range (a.width - 6), ssimWindow a.pix b.pix i j :=
                Finset.card_nsmul_le_sum _ _ _
                  (fun j _ => (ssimWindow_bounds a.pix b.pix i j).1)
  constructor
  · rw [le_div_iff₀ hdpos]
    linarith
  · rw [div_le_one hdpos]
    exact hub

/-- C4 (amended): for every target with at least one full 7x7 window and
every candidate, the evaluator returns a scalar in the closed interval
`[-1, 1]` (the true range of SSIM), with `1` denoting perceptual
identity; the spec's claimed interval `[0, 1]` is refuted by the
checkerboard counterexample above. -/
theorem ssim_score_in_range (a b : Img) (hh : 7 ≤ a.height) (hw : 7 ≤ a.width) :
    -1 ≤ ssim_score a b ∧ ssim_score a b ≤ 1 := by
  rw [ssim_score, alignForSsim]
  by_cases h : imgShape a ≠ imgShape b
  · rw [if_pos h]
    exact mssim_bounds a _ hh hw
  · rw [if_neg h]
    exact mssim_bounds a b hh hw

/-- Witness for the amended C4 at the pair of identical white rasters. -/
theorem ssim_score_in_range_witness :
    -1 ≤ ssim_score (whiteImg 7 7) (whiteImg 7 7) ∧
      ssim_score (whiteImg 7 7) (whiteImg 7 7) ≤ 1 :=
  ssim_score_in_range (whiteImg 7 7) (whiteImg 7 7) (by decide) (by decide)

/-! ### Heuristic policy with the per-target override table (spec section 4.4) -/

/-- Modelled from the spec: a per-target override table is absent from
`src/tooling/tikzbot.py` (the heuristic there consists only of the two
score buckets of `adjustFor`); spec section 4.4 describes an externally
configured table, keyed by target name, whose entry "must fully replace,
not merge piecewise with, the default bucket's assignments for the
overlapping keys; keys not mentioned in the override retain the default
bucket's values".  Faithful to those words: each default pair keeps its
key, and its value is replaced exactly when the override maps that key. -/
def applyOverride (defaults ov : List (List Char × List Char)) :
    List (List Char × List Char) :=
  defaults.map fun kv =>
    match List.lookup kv.1 ov with
    | some v => (kv.1, v)
    | none => kv

/-- Modelled from the spec: the Heuristic Policy's effective proposal for
a target whose name has an entry `ov` in the override table — the default
score bucket with the override applied. -/
def proposeWithOverride (score : ℚ) (ov : List (List Char × List Char)) :
    List (List Char × List Char) :=
  applyOverride (adjustFor score) ov

theorem lookup_applyOverride (ov : List (List Char × List Char)) :
    ∀ defaults k v, List.lookup k defaults = some v →
      List.lookup k (applyOverride defaults ov) =
        some ((List.lookup k ov).getD v) := by
  intro defaults
  induction defaults with
  | nil => intro k v h; simp [List.lookup] at h
  | cons kv rest ih =>
    rcases kv with ⟨k2, v2⟩
    intro k v h
    rw [applyOverride, List.map_cons]
    by_cases hk : k = k2
    · subst hk
      have hv : v2 = v := by simpa [List.lookup] using h
      subst hv
      rcases hov : List.lookup k ov with _ | w
      · simp [List.lookup, hov]
      · simp [List.lookup, hov]
    · have hrest : List.lookup k rest = some v := by
        simpa [List.lookup, beq_eq_false_iff_ne.mpr hk] using h
      have ihres := ih k v hrest
      rw [applyOverride] at ihres
      rcases hov2 : List.lookup k2 ov with _ | v3
      · simp only [hov2]
        simp only [List.lookup, beq_eq_false_iff_ne.mpr hk]
        exact ihres
      · simp only [hov2]
        simp only [List.lookup, beq_eq_false_iff_ne.mpr hk]
        exact ihres

/-- C6: for every target with an override entry, the policy's effective
proposal equals the default score-bucket's assignments with each
overlapping key fully replaced by the override's value, while keys not
mentioned in the override retain the default bucket's values: looking up
any knob the default bucket assigns yields the override's value when the
override mentions that knob, and the default value otherwise. -/
theorem override_replaces_overlapping_keys (score : ℚ)
    (ov : List (List Char × List Char)) (k v : List Char)
    (h : List.lookup k (adjustFor score) = some v) :
    List.lookup k (proposeWithOverride score ov) =
      some ((List.lookup k ov).getD v) :=
  lookup_applyOverride ov (adjustFor score) k v h

/-- Witness for C6, the spec's scenario: an override `lineThick := 2.0pt`
for a target whose default bucket (score in `[0.96, threshold)`) proposes
`lineThick := 1.6pt, axisLift := 0.12` — the effective value of
`lineThick` is the override's. -/
theorem override_replaces_overlapping_keys_witness :
    List.lookup lineThick
        (proposeWithOverride (97 / 100) [(lineThick, "2.0pt".toList)]) =
      some ((List.lookup lineThick [(lineThick, "2.0pt".toList)]).getD
        "1.6pt".toList) := by
  refine override_replaces_overlapping_keys (97 / 100)
    [(lineThick, "2.0pt".toList)] lineThick "1.6pt".toList ?_
  rw [adjustFor, if_neg (by norm_num)]
  decide

/-! ### Session bootstrap (gen_chapter_list.py lines 39-45 and 64-70) -/

/-- A file system: a map from paths to file contents. -/
def FS : Type := String → Option String

/-- The snippet-ensuring step of `gen_chapter_list.main`:
`if not snip.exists(): shutil.copyfile(SNIPPET_TPL, snip)` — the template
is written only when no file is present at the path. -/
def ensureSnippet (fs : FS) (path tpl : String) : FS :=
  match fs path with
  | some _ => fs
  | none => fun p => if p = path then some tpl else fs p

/-- The snippet path assigned to a chapter-grouped target
(gen_chapter_list.py lines 36, 42): `figures/tikz/<chSlug>/<stem>.tikz.tex`. -/
def chapterSnippetPath (chSlug stem : String) : String :=
  "figures/tikz/" ++ chSlug ++ "/" ++ stem ++ ".tikz.tex"

/-- The snippet path assigned to a miscellaneous target
(gen_chapter_list.py lines 62, 67): `figures/tikz/misc/<stem>.tikz.tex`. -/
def miscSnippetPath (stem : String) : String :=
  "figures/tikz/misc/" ++ stem ++ ".tikz.tex"

/-- C8: bootstrap never overwrites an existing description: if a snippet
file already exists at its assigned path — on the chapter path or on the
miscellaneous path — the ensure step leaves the file system unchanged, so
the file's contents (prior manual edits included) are preserved. -/
theorem bootstrap_preserves_existing (fs : FS) (tpl chSlug stem stem2 c c2 : String)
    (h1 : fs (chapterSnippetPath chSlug stem) = some c)
    (h2 : fs (miscSnippetPath stem2) = some c2) :
    ensureSnippet fs (chapterSnippetPath chSlug stem) tpl = fs ∧
      ensureSnippet fs (miscSnippetPath stem2) tpl = fs := by
  constructor
  · rw [ensureSnippet, h1]
  · rw [ensureSnippet, h2]

/-- A concrete file system with one chapter snippet and one misc snippet. -/
def fsExample : FS := fun p =>
  if p = chapterSnippetPath "ch01" "01_1_fig" then some "chapter snippet body"
  else if p = miscSnippetPath "logo" then some "misc snippet body"
  else none

/-- Witness for C8 on the concrete file system. -/
theorem bootstrap_preserves_existing_witness :
    ensureSnippet fsExample (chapterSnippetPath "ch01" "01_1_fig") "TPL" = fsExample ∧
      ensureSnippet fsExample (miscSnippetPath "logo") "TPL" = fsExample :=
  bootstrap_preserves_existing fsExample "TPL" "ch01" "01_1_fig" "logo"
    "chapter snippet body" "misc snippet body" (by decide) (by decide)

/-! ### Batch raster output paths (tikzbot.py lines 107-132) -/

/-- Python `f"{i:03d}"`: zero-padded three-digit formatting of a page number. -/
def pad3 (i : ℕ) : String :=
  if i < 10 then "00" ++ toString i
  else if i < 100 then "0" ++ toString i
  else toString i

/-- The raster file produced for page `i` of a batch
(tikzbot.py lines 107, 112): `f"{out_prefix}_{i:03d}.png"`. -/
def batchPagePng (outPrefix : String) (i : ℕ) : String :=
  outPrefix ++ "_" ++ pad3 i ++ ".png"

/-- The raster path read back after a single-figure re-render
(tikzbot.py lines 131-132): the temporary driver holds one figure, so its
PDF has a single page, `pdf_to_png` writes `{out_prefix}_001.png`, and
`gen_png` is reassigned to that path. -/
def singleRerenderPng (outPrefix : String) : String :=
  outPrefix ++ "_001.png"

/-- The raster path `gen_png` evaluated for item `i` at a given attempt
(tikzbot.py lines 112 and 131-132): the item's own batch page on the
initial attempt, the shared single-figure output on every later attempt. -/
def genPngForAttempt (outPrefix : String) (i attempt : ℕ) : String :=
  if attempt = 0 then batchPagePng outPrefix i else singleRerenderPng outPrefix

/-- C10: every single-figure re-render during refinement (any attempt
after the first) writes and reads its raster at the batch's page-001
output path, whatever the item's position `i` in the batch — so refining
an item at any position greater than 1 overwrites the raster output file
of the batch's first item. -/
theorem rerender_overwrites_page_one (outPrefix : String) (i t : ℕ) :
    genPngForAttempt outPrefix i (t + 1) = batchPagePng outPrefix 1 := by
  rw [genPngForAttempt, if_neg (Nat.succ_ne_zero t)]
  rw [singleRerenderPng, batchPagePng, pad3, if_pos (by norm_num)]
  rw [String.append_assoc, String.append_assoc]
  rfl

end Figurelab
